import Mathlib

/-!
Verification development for PyTeCK's `pyteck/simulation.py`.

The Python source is shallowly embedded over `List ℚ` (numpy arrays of
floats become lists of rationals), with fallible library calls modelled by
`Option`/`Except`: `numpy.argmax`/`numpy.argmin` return `none` on an empty
array (where numpy raises `ValueError`), and code paths that hit Python
runtime errors (`NameError`, `IndexError`) return `Except.error`.
-/

namespace PyTeCK

/-- Model of `numpy.argmax`: the index of the first occurrence of the maximum
value of the array, `none` for an empty array (numpy raises `ValueError`). -/
def argmaxIdx (l : List ℚ) : Option ℕ :=
  (List.range l.length).find? (fun i => decide (∀ j, j < l.length → l.getD j 0 ≤ l.getD i 0))

/-- Model of `numpy.argmin`: the index of the first occurrence of the minimum
value of the array, `none` for an empty array (numpy raises `ValueError`). -/
def argminIdx (l : List ℚ) : Option ℕ :=
  (List.range l.length).find? (fun i => decide (∀ j, j < l.length → l.getD i 0 ≤ l.getD j 0))

/-- Model of `numpy.max` on a nonempty array (0 as a junk value on `[]`,
never used: callers guard emptiness). -/
def npMaxD : List ℚ → ℚ
  | [] => 0
  | a :: t => t.foldl max a

/-- A finite function on `ℕ` attains a maximum on `{0, ..., n-1}`. -/
lemma exists_argmax_fn (f : ℕ → ℚ) : ∀ n : ℕ, 0 < n → ∃ i, i < n ∧ ∀ j, j < n → f j ≤ f i := by
  intro n
  induction n with
  | zero => intro h; exact absurd h (lt_irrefl 0)
  | succ n ih =>
    intro _
    by_cases hn : 0 < n
    · obtain ⟨i, hi, hmax⟩ := ih hn
      by_cases hcmp : f n ≤ f i
      · refine ⟨i, Nat.lt_succ_of_lt hi, ?_⟩
        intro j hj
        rcases Nat.lt_succ_iff_lt_or_eq.mp hj with h | h
        · exact hmax j h
        · subst h; exact hcmp
      · refine ⟨n, Nat.lt_succ_self n, ?_⟩
        intro j hj
        rcases Nat.lt_succ_iff_lt_or_eq.mp hj with h | h
        · exact le_trans (hmax j h) (le_of_not_le hcmp)
        · subst h; exact le_refl _
    · have hz : n = 0 := by omega
      subst hz
      refine ⟨0, Nat.lt_succ_self 0, ?_⟩
      intro j hj
      have : j = 0 := by omega
      subst this; exact le_refl _

/-- Specification of `argmaxIdx` on a nonempty list: it returns the first
index (in particular, some index) whose value dominates every entry. -/
lemma argmaxIdx_spec (l : List ℚ) (hne : l ≠ []) :
    ∃ k, argmaxIdx l = some k ∧ k < l.length ∧
      ∀ j, j < l.length → l.getD j 0 ≤ l.getD k 0 := by
  have hn : 0 < l.length := List.length_pos.mpr hne
  obtain ⟨i, hi, hmax⟩ := exists_argmax_fn (fun j => l.getD j 0) l.length hn
  have hsome : (argmaxIdx l).isSome := by
    rw [argmaxIdx, List.find?_isSome]
    exact ⟨i, List.mem_range.mpr hi, by simpa using hmax⟩
  obtain ⟨k, hk⟩ := Option.isSome_iff_exists.mp hsome
  refine ⟨k, hk, ?_, ?_⟩
  · exact List.mem_range.mp (List.mem_of_find?_eq_some hk)
  · have := List.find?_some hk
    simpa using this

/-- Specification of `argminIdx` on a nonempty list. -/
lemma argminIdx_spec (l : List ℚ) (hne : l ≠ []) :
    ∃ k, argminIdx l = some k ∧ k < l.length ∧
      ∀ j, j < l.length → l.getD k 0 ≤ l.getD j 0 := by
  have hn : 0 < l.length := List.length_pos.mpr hne
  obtain ⟨i, hi, hmax⟩ := exists_argmax_fn (fun j => -(l.getD j 0)) l.length hn
  have hsome : (argminIdx l).isSome := by
    rw [argminIdx, List.find?_isSome]
    refine ⟨i, List.mem_range.mpr hi, ?_⟩
    simp only [decide_eq_true_eq]
    intro j hj
    have := hmax j hj
    linarith
  obtain ⟨k, hk⟩ := Option.isSome_iff_exists.mp hsome
  refine ⟨k, hk, ?_, ?_⟩
  · exact List.mem_range.mp (List.mem_of_find?_eq_some hk)
  · have := List.find?_some hk
    simpa using this

/-- Index into a mapped list within bounds (defaults are irrelevant). -/
lemma getD_map_of_lt {α β : Type} (f : α → β) (l : List α) (dA : α) (dB : β) (j : ℕ)
    (h : j < l.length) : (l.map f).getD j dB = f (l.getD j dA) := by
  rw [List.getD_eq_getElem _ _ (by simpa using h), List.getD_eq_getElem _ _ h,
    List.getElem_map]

/-- One entry of `numpy.gradient(y, x, edge_order=2)` for possibly non-uniform
sample positions `x` (length `n`): second-order one-sided three-point
differences at both boundaries and second-order central differences at
interior points, with step-size weighting taken from `x`. -/
def gradAt (x y : List ℚ) (n i : ℕ) : ℚ :=
  if i = 0 then
    let dx1 := x.getD 1 0 - x.getD 0 0
    let dx2 := x.getD 2 0 - x.getD 1 0
    (-(2 * dx1 + dx2) / (dx1 * (dx1 + dx2))) * y.getD 0 0
      + ((dx1 + dx2) / (dx1 * dx2)) * y.getD 1 0
      + (-dx1 / (dx2 * (dx1 + dx2))) * y.getD 2 0
  else if i = n - 1 then
    let dx1 := x.getD (n - 2) 0 - x.getD (n - 3) 0
    let dx2 := x.getD (n - 1) 0 - x.getD (n - 2) 0
    (dx2 / (dx1 * (dx1 + dx2))) * y.getD (n - 3) 0
      + (-(dx2 + dx1) / (dx1 * dx2)) * y.getD (n - 2) 0
      + ((2 * dx2 + dx1) / (dx2 * (dx1 + dx2))) * y.getD (n - 1) 0
  else
    let dx1 := x.getD i 0 - x.getD (i - 1) 0
    let dx2 := x.getD (i + 1) 0 - x.getD i 0
    (-dx2 / (dx1 * (dx1 + dx2))) * y.getD (i - 1) 0
      + ((dx2 - dx1) / (dx1 * dx2)) * y.getD i 0
      + (dx1 / (dx2 * (dx1 + dx2))) * y.getD (i + 1) 0

/-- `first_derivative(x, y)` from simulation.py (lines 33-46): evaluates the
first derivative `dy/dx` as `numpy.gradient(y, x, edge_order=2)`. -/
def first_derivative (x y : List ℚ) : List ℚ :=
  (List.range x.length).map (gradAt x y x.length)

/-- Left boundary formula in terms of the two step sizes s and d. -/
lemma quadLeftSD (A B C u s d : ℚ) (hs : s ≠ 0) (hd : d ≠ 0) (hsd : s + d ≠ 0) :
    (-(2 * s + d) / (s * (s + d))) * (A * u ^ 2 + B * u + C)
      + ((s + d) / (s * d)) * (A * (u + s) ^ 2 + B * (u + s) + C)
      + (-s / (d * (s + d))) * (A * (u + s + d) ^ 2 + B * (u + s + d) + C)
      = 2 * A * u + B := by
  field_simp
  ring

/-- Interior central-difference formula in terms of the two step sizes. -/
lemma quadInteriorSD (A B C u s d : ℚ) (hs : s ≠ 0) (hd : d ≠ 0) (hsd : s + d ≠ 0) :
    (-d / (s * (s + d))) * (A * u ^ 2 + B * u + C)
      + ((d - s) / (s * d)) * (A * (u + s) ^ 2 + B * (u + s) + C)
      + (s / (d * (s + d))) * (A * (u + s + d) ^ 2 + B * (u + s + d) + C)
      = 2 * A * (u + s) + B := by
  field_simp
  ring

/-- Right boundary formula in terms of the two step sizes. -/
lemma quadRightSD (A B C u s d : ℚ) (hs : s ≠ 0) (hd : d ≠ 0) (hsd : s + d ≠ 0) :
    (d / (s * (s + d))) * (A * u ^ 2 + B * u + C)
      + (-(d + s) / (s * d)) * (A * (u + s) ^ 2 + B * (u + s) + C)
      + ((2 * d + s) / (d * (s + d))) * (A * (u + s + d) ^ 2 + B * (u + s + d) + C)
      = 2 * A * (u + s + d) + B := by
  field_simp
  ring

/-- The left-boundary one-sided three-point formula is exact for quadratics. -/
lemma quadLeft (A B C u v w : ℚ) (h1 : u < v) (h2 : v < w) :
    (-(2 * (v - u) + (w - v)) / ((v - u) * ((v - u) + (w - v)))) * (A * u ^ 2 + B * u + C)
      + (((v - u) + (w - v)) / ((v - u) * (w - v))) * (A * v ^ 2 + B * v + C)
      + (-(v - u) / ((w - v) * ((v - u) + (w - v)))) * (A * w ^ 2 + B * w + C)
      = 2 * A * u + B := by
  have d1 : v - u ≠ 0 := sub_ne_zero.mpr h1.ne'
  have d2 : w - v ≠ 0 := sub_ne_zero.mpr h2.ne'
  have d3 : (v - u) + (w - v) ≠ 0 := by
    have h : (0 : ℚ) < (v - u) + (w - v) := by linarith
    exact h.ne'
  have key := quadLeftSD A B C u (v - u) (w - v) d1 d2 d3
  have e1 : u + (v - u) = v := by ring
  rw [e1] at key
  have e2 : v + (w - v) = w := by ring
  rw [e2] at key
  exact key

/-- The interior central-difference formula is exact for quadratics. -/
lemma quadInterior (A B C u v w : ℚ) (h1 : u < v) (h2 : v < w) :
    (-(w - v) / ((v - u) * ((v - u) + (w - v)))) * (A * u ^ 2 + B * u + C)
      + (((w - v) - (v - u)) / ((v - u) * (w - v))) * (A * v ^ 2 + B * v + C)
      + ((v - u) / ((w - v) * ((v - u) + (w - v)))) * (A * w ^ 2 + B * w + C)
      = 2 * A * v + B := by
  have d1 : v - u ≠ 0 := sub_ne_zero.mpr h1.ne'
  have d2 : w - v ≠ 0 := sub_ne_zero.mpr h2.ne'
  have d3 : (v - u) + (w - v) ≠ 0 := by
    have h : (0 : ℚ) < (v - u) + (w - v) := by linarith
    exact h.ne'
  have key := quadInteriorSD A B C u (v - u) (w - v) d1 d2 d3
  have e1 : u + (v - u) = v := by ring
  rw [e1] at key
  have e2 : v + (w - v) = w := by ring
  rw [e2] at key
  exact key

/-- The right-boundary one-sided three-point formula is exact for quadratics. -/
lemma quadRight (A B C u v w : ℚ) (h1 : u < v) (h2 : v < w) :
    ((w - v) / ((v - u) * ((v - u) + (w - v)))) * (A * u ^ 2 + B * u + C)
      + (-((w - v) + (v - u)) / ((v - u) * (w - v))) * (A * v ^ 2 + B * v + C)
      + ((2 * (w - v) + (v - u)) / ((w - v) * ((v - u) + (w - v)))) * (A * w ^ 2 + B * w + C)
      = 2 * A * w + B := by
  have d1 : v - u ≠ 0 := sub_ne_zero.mpr h1.ne'
  have d2 : w - v ≠ 0 := sub_ne_zero.mpr h2.ne'
  have d3 : (v - u) + (w - v) ≠ 0 := by
    have h : (0 : ℚ) < (v - u) + (w - v) := by linarith
    exact h.ne'
  have key := quadRightSD A B C u (v - u) (w - v) d1 d2 d3
  have e1 : u + (v - u) = v := by ring
  rw [e1] at key
  have e2 : v + (w - v) = w := by ring
  rw [e2] at key
  exact key

/-- C10: for every polynomial of degree at most 2 sampled at n ≥ 3 strictly
increasing points (regular or irregular spacing), `first_derivative` returns at
every sample exactly the analytic derivative, via second-order central
differences in the interior and second-order one-sided three-point differences
at both boundary points. -/
theorem C10_first_derivative_exact_on_quadratics
    (x : List ℚ) (A B C : ℚ) (hlen : 3 ≤ x.length)
    (hmono : ∀ i, i + 1 < x.length → x.getD i 0 < x.getD (i + 1) 0) :
    first_derivative x (x.map (fun t => A * t ^ 2 + B * t + C))
      = x.map (fun t => 2 * A * t + B) := by
  apply List.ext_getElem
  · simp [first_derivative]
  · intro i h1 h2
    have hn : i < x.length := by simpa [first_derivative] using h2
    have hyD : ∀ j, j < x.length →
        (x.map (fun t => A * t ^ 2 + B * t + C)).getD j 0
          = A * (x.getD j 0) ^ 2 + B * (x.getD j 0) + C := by
      intro j hj
      exact getD_map_of_lt _ x 0 0 j hj
    rw [List.getElem_map]
    simp only [first_derivative]
    rw [List.getElem_map, List.getElem_range]
    have hxi : x[i] = x.getD i 0 := (List.getD_eq_getElem x 0 hn).symm
    rw [hxi]
    rcases eq_or_ne i 0 with hi0 | hi0
    · subst hi0
      rw [gradAt]
      simp only [if_pos rfl]
      rw [hyD 0 (by omega), hyD 1 (by omega), hyD 2 (by omega)]
      exact quadLeft A B C _ _ _ (hmono 0 (by omega)) (hmono 1 (by omega))
    · rcases eq_or_ne i (x.length - 1) with hiL | hiL
      · subst hiL
        rw [gradAt]
        rw [if_neg hi0, if_pos rfl]
        rw [hyD (x.length - 3) (by omega), hyD (x.length - 2) (by omega),
          hyD (x.length - 1) (by omega)]
        have e1 : x.length - 3 + 1 = x.length - 2 := by omega
        have e2 : x.length - 2 + 1 = x.length - 1 := by omega
        have m1 : x.getD (x.length - 3) 0 < x.getD (x.length - 2) 0 := by
          have := hmono (x.length - 3) (by omega)
          rwa [e1] at this
        have m2 : x.getD (x.length - 2) 0 < x.getD (x.length - 1) 0 := by
          have := hmono (x.length - 2) (by omega)
          rwa [e2] at this
        exact quadRight A B C _ _ _ m1 m2
      · rw [gradAt]
        rw [if_neg hi0, if_neg hiL]
        rw [hyD (i - 1) (by omega), hyD i hn, hyD (i + 1) (by omega)]
        have e1 : i - 1 + 1 = i := by omega
        have m1 : x.getD (i - 1) 0 < x.getD i 0 := by
          have := hmono (i - 1) (by omega)
          rwa [e1] at this
        have m2 : x.getD i 0 < x.getD (i + 1) 0 := hmono i (by omega)
        exact quadInterior A B C _ _ _ m1 m2

/-- Witness for C10 at the irregular grid x = [0, 1, 3] and y = x². -/
theorem C10_witness :
    first_derivative [0, 1, 3] ([0, 1, 3].map (fun t => 1 * t ^ 2 + 0 * t + 0))
      = [0, 1, 3].map (fun t => 2 * 1 * t + 0) :=
  C10_first_derivative_exact_on_quadratics [0, 1, 3] 1 0 0 (by decide)
    (by
      intro i hi
      have hlen3 : ([(0 : ℚ), 1, 3]).length = 3 := rfl
      have hi2 : i < 2 := by omega
      interval_cases i <;> decide)

/-- Two-point linear interpolation, the formula `numpy.interp` evaluates on a
bracketing segment. -/
def interpLin (t x0 y0 x1 y1 : ℚ) : ℚ := y0 + (y1 - y0) * (t - x0) / (x1 - x0)

/-- Scan of `numpy.interp` over the sample points to the right of the current
point `(x0, y0)`; assumes the abscissae are sorted and `x0 ≤ t`. -/
def npInterpAux (t : ℚ) : List (ℚ × ℚ) → ℚ → ℚ → ℚ
  | [], _, y0 => y0
  | (x1, y1) :: rest, x0, y0 =>
    if t ≤ x1 then interpLin t x0 y0 x1 y1 else npInterpAux t rest x1 y1

/-- Model of `numpy.interp(t, xp, fp, left=vl, right=vr)` for sorted `xp`;
`none` models the error numpy raises when `xp` is empty. -/
def npInterp (t : ℚ) (xp fp : List ℚ) (vl vr : ℚ) : Option ℚ :=
  match xp, fp with
  | x0 :: xr, y0 :: yr =>
      some (if t < x0 then vl
            else if (x0 :: xr).getLastD 0 < t then vr
            else npInterpAux t (xr.zip yr) x0 y0)
  | _, _ => none

/-- The `VolumeProfile` data of simulation.py: the history's times and the
wall velocity computed from them. -/
structure VolumeProfile where
  times : List ℚ
  velocity : List ℚ

/-- `VolumeProfile.__init__` (lines 106-127): stores the history's times and
the `first_derivative` of the volume series normalized by its first element. -/
def VolumeProfile.ofHistory (time volume : List ℚ) : VolumeProfile :=
  { times := time
  , velocity := first_derivative time (volume.map (fun v => v / volume.headD 0)) }

/-- `VolumeProfile.__call__` (lines 129-136):
`numpy.interp(time, self.times, self.velocity, left=0., right=0.)`. -/
def VolumeProfile.call (vp : VolumeProfile) (t : ℚ) : Option ℚ :=
  npInterp t vp.times vp.velocity 0 0

/-- `getLastD` of a nonempty list is its entry at index `length - 1`, for any
defaults. -/
lemma getLastD_eq_getD {α : Type} (dl dg : α) :
    ∀ l : List α, l ≠ [] → l.getLastD dl = l.getD (l.length - 1) dg := by
  intro l
  induction l generalizing dl with
  | nil => intro h; exact absurd rfl h
  | cons a t ih =>
    intro _
    cases t with
    | nil => rfl
    | cons b t2 =>
      rw [List.getLastD_cons, ih a (by simp)]
      simp [List.length_cons, List.getD_cons_succ]

/-- Strictly sorted lists have strictly increasing entries. -/
lemma getD_lt_of_pairwise {α : Type} [Preorder α] (d : α) (l : List α)
    (h : List.Pairwise (· < ·) l) (i j : ℕ) (hij : i < j) (hj : j < l.length) :
    l.getD i d < l.getD j d := by
  rw [List.getD_eq_getElem _ _ (lt_trans hij hj), List.getD_eq_getElem _ _ hj]
  exact List.pairwise_iff_getElem.mp h i j (lt_trans hij hj) hj hij

/-- Weak monotonicity of entries of a strictly sorted list. -/
lemma getD_le_of_pairwise {α : Type} [Preorder α] (d : α) (l : List α)
    (h : List.Pairwise (· < ·) l) (i j : ℕ) (hij : i ≤ j) (hj : j < l.length) :
    l.getD i d ≤ l.getD j d := by
  rcases lt_or_eq_of_le hij with hlt | heq
  · exact le_of_lt (getD_lt_of_pairwise d l h i j hlt hj)
  · subst heq; exact le_refl _

/-- At `t = x1` the segment formula collapses to `y1` (needs `x0 ≠ x1`). -/
lemma interpLin_right (x0 y0 x1 y1 : ℚ) (h : x0 < x1) :
    interpLin x1 x0 y0 x1 y1 = y1 := by
  have hne : x1 - x0 ≠ 0 := sub_ne_zero.mpr h.ne'
  rw [interpLin, mul_div_assoc, div_self hne, mul_one]
  ring

/-- At `t = x0` the segment formula collapses to `y0` (no side condition:
the numerator vanishes). -/
lemma interpLin_left (x0 y0 x1 y1 : ℚ) : interpLin x0 x0 y0 x1 y1 = y0 := by
  rw [interpLin, sub_self, mul_zero, zero_div, add_zero]

/-- `npInterpAux` evaluates the two-point formula of the bracketing segment:
segment `i` of the extended point list `(x0, y0) :: pts`, when
`x_i ≤ t < x_(i+1)`. -/
lemma npInterpAux_segment (t : ℚ) :
    ∀ (pts : List (ℚ × ℚ)) (x0 y0 : ℚ),
      List.Pairwise (· < ·) (x0 :: pts.map Prod.fst) →
      x0 ≤ t →
      ∀ i, i + 1 < ((x0, y0) :: pts).length →
        (((x0, y0) :: pts).getD i (0, 0)).1 ≤ t →
        t < (((x0, y0) :: pts).getD (i + 1) (0, 0)).1 →
        npInterpAux t pts x0 y0
          = interpLin t (((x0, y0) :: pts).getD i (0, 0)).1
              (((x0, y0) :: pts).getD i (0, 0)).2
              (((x0, y0) :: pts).getD (i + 1) (0, 0)).1
              (((x0, y0) :: pts).getD (i + 1) (0, 0)).2 := by
  intro pts
  induction pts with
  | nil =>
    intro x0 y0 _ _ i hi _ _
    simp at hi
  | cons p rest ih =>
    obtain ⟨x1, y1⟩ := p
    intro x0 y0 hpw hx0 i hi hle hlt
    have hx01 : x0 < x1 := by
      have := (List.pairwise_cons.mp hpw).1
      exact this x1 (by simp)
    have hpw1 : List.Pairwise (· < ·) (x1 :: rest.map Prod.fst) := by
      simpa using (List.pairwise_cons.mp hpw).2
    cases i with
    | zero =>
      have hlt1 : t < x1 := by simpa using hlt
      simp only [npInterpAux, if_pos (le_of_lt hlt1)]
      simp
    | succ k =>
      have hk : k < ((x1, y1) :: rest).length := by
        simp at hi ⊢
        omega
      have hleK : (((x1, y1) :: rest).getD k (0, 0)).1 ≤ t := by
        simpa [List.getD_cons_succ] using hle
      have hltK : t < (((x1, y1) :: rest).getD (k + 1) (0, 0)).1 := by
        simpa [List.getD_cons_succ] using hlt
      by_cases hcmp : t ≤ x1
      · -- stopping early is only possible exactly at t = x1, in segment 0
        have hk0 : k = 0 := by
          by_contra hk0
          have hklt : 0 < k := Nat.pos_of_ne_zero hk0
          have hx1lt : x1 < (((x1, y1) :: rest).getD k (0, 0)).1 := by
            have h0 := getD_lt_of_pairwise (0 : ℚ) (x1 :: rest.map Prod.fst)
              hpw1 0 k hklt (by simpa using hk)
            rw [List.getD_cons_zero] at h0
            have hmap2 : (x1 :: rest.map Prod.fst) = ((x1, y1) :: rest).map Prod.fst := by
              simp
            rw [hmap2, getD_map_of_lt Prod.fst _ (0, 0) 0 k hk] at h0
            exact h0
          exact absurd (lt_of_lt_of_le hx1lt hleK) (not_lt.mpr hcmp)
        subst hk0
        have ht : t = x1 := le_antisymm hcmp (by simpa using hleK)
        simp only [npInterpAux, if_pos hcmp, List.getD_cons_succ, List.getD_cons_zero]
        rw [ht, interpLin_right x0 y0 x1 y1 hx01, interpLin_left]
      · have hx1t : x1 ≤ t := le_of_lt (not_le.mp hcmp)
        simp only [npInterpAux, if_neg hcmp]
        have hk1 : k + 1 < ((x1, y1) :: rest).length := by
          simp only [List.length_cons] at hi ⊢
          omega
        have hres := ih x1 y1 hpw1 hx1t k hk1 hleK hltK
        simp only [List.getD_cons_succ] at hres ⊢
        exact hres

/-- `npInterpAux` at exactly the last sample returns the last ordinate. -/
lemma npInterpAux_last (t : ℚ) :
    ∀ (pts : List (ℚ × ℚ)) (x0 y0 : ℚ),
      List.Pairwise (· < ·) (x0 :: pts.map Prod.fst) →
      t = (((x0, y0) :: pts).getLastD (0, 0)).1 →
      npInterpAux t pts x0 y0 = (((x0, y0) :: pts).getLastD (0, 0)).2 := by
  intro pts
  induction pts with
  | nil => intro x0 y0 _ _; rfl
  | cons p rest ih =>
    obtain ⟨x1, y1⟩ := p
    intro x0 y0 hpw ht
    have hx01 : x0 < x1 := by
      have := (List.pairwise_cons.mp hpw).1
      exact this x1 (by simp)
    have hpw1 : List.Pairwise (· < ·) (x1 :: rest.map Prod.fst) := by
      simpa using (List.pairwise_cons.mp hpw).2
    have hlast : ((x0, y0) :: (x1, y1) :: rest).getLastD (0, 0)
        = ((x1, y1) :: rest).getLastD (0, 0) := by
      rw [List.getLastD_cons]
      rw [getLastD_eq_getD (x0, y0) (0, 0) _ (by simp),
        getLastD_eq_getD (0, 0) (0, 0) _ (by simp)]
    rw [hlast] at ht ⊢
    cases rest with
    | nil =>
      have ht1 : t = x1 := by simpa using ht
      subst ht1
      simp only [npInterpAux, if_pos (le_refl t)]
      rw [interpLin_right x0 y0 t y1 hx01]
      simp
    | cons q rest2 =>
      have hx1lt : x1 < t := by
        have hpos : 0 < ((x1, y1) :: q :: rest2).length - 1 := by simp
        have hmap : ((x1, y1) :: q :: rest2).map Prod.fst
            = x1 :: (q :: rest2).map Prod.fst := by simp
        have hmono := getD_lt_of_pairwise (0 : ℚ) (x1 :: (q :: rest2).map Prod.fst)
          hpw1 0 (((x1, y1) :: q :: rest2).length - 1) hpos (by simp)
        rw [List.getD_cons_zero, ← hmap,
          getD_map_of_lt Prod.fst _ (0, 0) 0 _ (by simp)] at hmono
        rw [ht, getLastD_eq_getD (0, 0) (0, 0) _ (by simp)]
        exact hmono
      simp only [npInterpAux, if_neg (not_le.mpr hx1lt)]
      exact ih x1 y1 hpw1 ht

/-- Entries of a zip of equally long lists. -/
lemma zip_getD (l1 l2 : List ℚ) (h : l2.length = l1.length) (j : ℕ) (hj : j < l1.length) :
    (l1.zip l2).getD j (0, 0) = (l1.getD j 0, l2.getD j 0) := by
  have hj2 : j < l2.length := by omega
  have hzl : j < (l1.zip l2).length := by
    rw [List.length_zip, h, min_self]
    exact hj
  rw [List.getD_eq_getElem _ _ hzl, List.getD_eq_getElem _ _ hj,
    List.getD_eq_getElem _ _ hj2]
  exact List.getElem_zip

/-- Full evaluation contract of `npInterp` on a sorted nonempty grid:
`left`/`right` clamping strictly outside the sampled range, the bracketing
segment's linear interpolation inside it, the last ordinate at the last
sample. -/
lemma npInterp_spec (t : ℚ) (xp fp : List ℚ) (vl vr : ℚ)
    (hne : xp ≠ []) (hlen : fp.length = xp.length)
    (hsort : List.Pairwise (· < ·) xp) :
    (t < xp.getD 0 0 → npInterp t xp fp vl vr = some vl) ∧
    (xp.getLastD 0 < t → npInterp t xp fp vl vr = some vr) ∧
    (∀ i, i + 1 < xp.length → xp.getD i 0 ≤ t → t < xp.getD (i + 1) 0 →
      npInterp t xp fp vl vr
        = some (interpLin t (xp.getD i 0) (fp.getD i 0)
            (xp.getD (i + 1) 0) (fp.getD (i + 1) 0))) ∧
    (t = xp.getLastD 0 → npInterp t xp fp vl vr = some (fp.getD (xp.length - 1) 0)) := by
  cases xp with
  | nil => exact absurd rfl hne
  | cons x0 xr =>
    cases fp with
    | nil => simp at hlen
    | cons y0 yr =>
      have hyr : yr.length = xr.length := by simpa using hlen
      have hmapfst : (xr.zip yr).map Prod.fst = xr :=
        List.map_fst_zip xr yr (le_of_eq hyr.symm)
      have hpw : List.Pairwise (· < ·) (x0 :: (xr.zip yr).map Prod.fst) := by
        rw [hmapfst]; exact hsort
      have hzipD : ∀ j, j < (x0 :: xr).length →
          ((x0, y0) :: xr.zip yr).getD j (0, 0)
            = ((x0 :: xr).getD j 0, (y0 :: yr).getD j 0) :=
        fun j hj => zip_getD (x0 :: xr) (y0 :: yr) hlen j hj
      have hlast : (x0 :: xr).getLastD 0 = (x0 :: xr).getD ((x0 :: xr).length - 1) 0 :=
        getLastD_eq_getD 0 0 _ (by simp)
      have hx0le : ∀ j, j < (x0 :: xr).length → x0 ≤ (x0 :: xr).getD j 0 := by
        intro j hj
        have := getD_le_of_pairwise 0 (x0 :: xr) hsort 0 j (Nat.zero_le j) hj
        simpa using this
      refine ⟨?_, ?_, ?_, ?_⟩
      · intro h
        have h0 : t < x0 := by simpa using h
        simp only [npInterp, if_pos h0]
      · intro h
        have hx0t : ¬ t < x0 := by
          have hx0last : x0 ≤ (x0 :: xr).getLastD 0 := by
            rw [hlast]
            exact hx0le _ (by simp)
          exact not_lt.mpr (le_of_lt (lt_of_le_of_lt hx0last h))
        simp only [npInterp, if_neg hx0t, if_pos h]
      · intro i hi hle hlt
        have hx0t : ¬ t < x0 := by
          have := hx0le i (by omega)
          exact not_lt.mpr (le_trans this hle)
        have hlastt : ¬ (x0 :: xr).getLastD 0 < t := by
          rw [hlast]
          have hle2 : (x0 :: xr).getD (i + 1) 0 ≤ (x0 :: xr).getD ((x0 :: xr).length - 1) 0 :=
            getD_le_of_pairwise 0 (x0 :: xr) hsort (i + 1) ((x0 :: xr).length - 1)
              (by omega) (by omega)
          exact not_lt.mpr (le_of_lt (lt_of_lt_of_le hlt hle2))
        simp only [npInterp, if_neg hx0t, if_neg hlastt]
        have hseg := npInterpAux_segment t (xr.zip yr) x0 y0 hpw
          (by
            have := hx0le i (by omega)
            exact le_trans this hle)
          i
          (by
            have hzlen : ((x0, y0) :: xr.zip yr).length = (x0 :: xr).length := by
              simp [List.length_zip, hyr]
            rw [hzlen]
            exact hi)
          (by rw [hzipD i (by omega)]; exact hle)
          (by rw [hzipD (i + 1) (by omega)]; exact hlt)
        rw [hseg, hzipD i (by omega), hzipD (i + 1) (by omega)]
      · intro ht
        have hx0t : ¬ t < x0 := by
          rw [ht, hlast]
          exact not_lt.mpr (hx0le _ (by simp))
        have hlastt : ¬ (x0 :: xr).getLastD 0 < t := by
          rw [ht]
          exact lt_irrefl _
        simp only [npInterp, if_neg hx0t, if_neg hlastt]
        have hzlen : ((x0, y0) :: xr.zip yr).length = (x0 :: xr).length := by
          simp [List.length_zip, hyr]
        have hzlast : ((x0, y0) :: xr.zip yr).getLastD (0, 0)
            = ((x0 :: xr).getD ((x0 :: xr).length - 1) 0,
               (y0 :: yr).getD ((x0 :: xr).length - 1) 0) := by
          rw [getLastD_eq_getD (0, 0) (0, 0) _ (by simp), hzlen]
          exact hzipD _ (by simp)
        have hlastHit := npInterpAux_last t (xr.zip yr) x0 y0 hpw
          (by rw [hzlast]; rw [ht, hlast])
        rw [hlastHit, hzlast]

/-- C8: for every synthesized VolumeProfile (the wall-velocity profile built
from a volume history), evaluation at a time strictly before the first sample
or strictly after the last sample returns exactly 0, and evaluation inside
the sampled range returns the piecewise-linear interpolation of the stored
(time, velocity) series: on each bracketing segment the two-point linear
interpolation, and the stored last velocity exactly at the last sample. -/
theorem C8_velocity_profile_clamp_and_interp (timeH volumeH : List ℚ) (t : ℚ)
    (hlen : 3 ≤ timeH.length) (hsort : List.Pairwise (· < ·) timeH) :
    (t < timeH.getD 0 0 → (VolumeProfile.ofHistory timeH volumeH).call t = some 0) ∧
    (timeH.getLastD 0 < t → (VolumeProfile.ofHistory timeH volumeH).call t = some 0) ∧
    (∀ i, i + 1 < timeH.length → timeH.getD i 0 ≤ t → t < timeH.getD (i + 1) 0 →
      (VolumeProfile.ofHistory timeH volumeH).call t
        = some (interpLin t (timeH.getD i 0)
            ((VolumeProfile.ofHistory timeH volumeH).velocity.getD i 0)
            (timeH.getD (i + 1) 0)
            ((VolumeProfile.ofHistory timeH volumeH).velocity.getD (i + 1) 0))) ∧
    (t = timeH.getLastD 0 →
      (VolumeProfile.ofHistory timeH volumeH).call t
        = some ((VolumeProfile.ofHistory timeH volumeH).velocity.getD (timeH.length - 1) 0)) := by
  have hne : timeH ≠ [] := by
    intro h
    rw [h] at hlen
    simp at hlen
  have hvlen : (VolumeProfile.ofHistory timeH volumeH).velocity.length = timeH.length := by
    simp [VolumeProfile.ofHistory, first_derivative]
  exact npInterp_spec t timeH (VolumeProfile.ofHistory timeH volumeH).velocity 0 0
    hne hvlen hsort

/-- Witness for C8: the profile built from times [0, 1, 2] evaluates to 0
strictly after the last sample. -/
theorem C8_witness :
    (VolumeProfile.ofHistory [0, 1, 2] [2, 4, 8]).call 5 = some 0 :=
  (C8_velocity_profile_clamp_and_interp [0, 1, 2] [2, 4, 8] 5 (by decide)
    (by decide)).2.1 (by decide)

/-- Lines 473-483 of `process_results` for criteria 'max' and 'd/dt max',
given the detected peak indices `ind`: index of the globally largest peak
(`max_ind`), then
`ign_delays = time[ind[numpy.where((time[ind[ind <= max_ind]] - time_comp) > 0)]] - time_comp`,
positions of the `where` taken against the filtered list but used to index the
full `ind`, exactly as in the source. `none` models the `ValueError` that
`numpy.argmax` raises when `ind` is empty. -/
def ignDelaysMax (target time : List ℚ) (ind : List ℕ) (tc : ℚ) : Option (List ℚ) :=
  match argmaxIdx (ind.map (fun i => target.getD i 0)) with
  | none => none
  | some k =>
    let m := ind.getD k 0
    let indF := ind.filter (fun i => decide (i ≤ m))
    let timesF := indF.map (fun i => time.getD i 0)
    let pos := (List.range timesF.length).filter (fun p => decide (0 < timesF.getD p 0 - tc))
    some (pos.map (fun p => time.getD (ind.getD p 0) 0 - tc))

/-- Lines 499-502: `ign_delays[-1]` when any delay was found, else 0. -/
def overallDelay (delays : List ℚ) : ℚ :=
  if 0 < delays.length then delays.getLastD 0 else 0

/-- Lines 504-508: `ign_delays[0]` when more than one delay was found, else
not-a-number (modelled as `none`). -/
def firstStageDelay (delays : List ℚ) : Option ℚ :=
  if 1 < delays.length then some (delays.getD 0 0) else none

/-- Lines 473-508 for criteria 'max'/'d/dt max': compression-time offset
(0 when absent), delays, then the two reported results. -/
def analyzeMax (target time : List ℚ) (ind : List ℕ) (compTime : Option ℚ) :
    Except String (ℚ × Option ℚ) :=
  match ignDelaysMax target time ind (compTime.getD 0) with
  | none => Except.error "ValueError: attempt to get argmax of an empty sequence"
  | some delays => Except.ok (overallDelay delays, firstStageDelay delays)

/-- Lines 484-494 for criterion '1/2 max', given the detected peak indices:
global maximum value of the raw series, index of the largest peak, then the
`argmin` of `|target[0:max_ind] - 0.5*max_val|`; `none` models the
`ValueError` numpy raises on an empty sequence (no samples, no peaks, or a
largest peak at index 0). -/
def ignDelaysHalfMax (target time : List ℚ) (ind : List ℕ) : Option (List ℚ) :=
  if target.isEmpty then none
  else
    let maxVal := npMaxD target
    match argmaxIdx (ind.map (fun i => target.getD i 0)) with
    | none => none
    | some k =>
      let m := ind.getD k 0
      match argminIdx ((target.take m).map (fun v => |v - 1/2 * maxVal|)) with
      | none => none
      | some h => some [time.getD h 0]

/-- Lines 484-508 for criterion '1/2 max'. -/
def analyzeHalfMax (target time : List ℚ) (ind : List ℕ) :
    Except String (ℚ × Option ℚ) :=
  match ignDelaysHalfMax target time ind with
  | none => Except.error "ValueError: attempt to get argmax of an empty sequence"
  | some delays => Except.ok (overallDelay delays, firstStageDelay delays)

/-- `process_results` (lines 439-508) over a stored trajectory, with the peak
detector `detect_peaks` (a collaborator module, not part of this file's
source) passed as a function parameter: criterion dispatch, the
derivative transform for 'd/dt max', the derivative fallback for 'max' when
no peak is found, and the final reporting. An unknown criterion leaves
`ign_delays` unbound in the source, a `NameError` at line 499. -/
def process_results (itype : String) (time target : List ℚ)
    (detect : List ℚ → List ℕ) (compTime : Option ℚ) :
    Except String (ℚ × Option ℚ) :=
  if itype = "max" ∨ itype = "d/dt max" then
    let target1 := if itype = "d/dt max" then first_derivative time target else target
    let ind1 := detect target1
    let target2 := if ind1.length = 0 ∧ itype = "max" then first_derivative time target1
      else target1
    let ind2 := if ind1.length = 0 ∧ itype = "max" then detect target2 else ind1
    analyzeMax target2 time ind2 compTime
  else if itype = "1/2 max" then
    analyzeHalfMax target time (detect target)
  else Except.error "NameError: ign_delays is not defined"

/-- On a strictly sorted list, filtering by an upper bound keeps a prefix:
entry `p` of the filtered list is entry `p` of the original list. -/
lemma filter_le_getD (m : ℕ) :
    ∀ (l : List ℕ), List.Pairwise (· < ·) l →
      ∀ p, p < (l.filter (fun i => decide (i ≤ m))).length →
        (l.filter (fun i => decide (i ≤ m))).getD p 0 = l.getD p 0 := by
  intro l
  induction l with
  | nil => intro _ p hp; simp at hp
  | cons a t ih =>
    intro hpw p hp
    have ha := (List.pairwise_cons.mp hpw).1
    have ht := (List.pairwise_cons.mp hpw).2
    by_cases ham : a ≤ m
    · rw [List.filter_cons_of_pos (by simpa using ham)] at hp ⊢
      cases p with
      | zero => rfl
      | succ q =>
        rw [List.getD_cons_succ, List.getD_cons_succ]
        exact ih ht q (by simpa using hp)
    · have hnil : t.filter (fun i => decide (i ≤ m)) = [] := by
        apply List.filter_eq_nil_iff.mpr
        intro b hb
        simp only [decide_eq_true_eq]
        have := ha b hb
        omega
      rw [List.filter_cons_of_neg (by simpa using ham), hnil] at hp
      simp at hp

/-- Filtering positions of `List.range l.length` by a predicate on the entry
at that position, then mapping a function of the entry, is filter-then-map on
the list itself. -/
lemma range_filter_map_getD {α β : Type} (q : α → Bool) (f : α → β) :
    ∀ (l : List α) (d : α),
      ((List.range l.length).filter (fun p => q (l.getD p d))).map
          (fun p => f (l.getD p d))
        = (l.filter q).map f := by
  intro l
  induction l with
  | nil => intro d; rfl
  | cons a t ih =>
    intro d
    have hrange : List.range (a :: t).length = 0 :: (List.range t.length).map Nat.succ := by
      rw [List.length_cons, List.range_succ_eq_map]
    rw [hrange]
    have htail :
        (((List.range t.length).map Nat.succ).filter
            (fun p => q ((a :: t).getD p d))).map (fun p => f ((a :: t).getD p d))
          = (t.filter q).map f := by
      rw [List.filter_map, List.map_map]
      have hcomp1 : ((fun p => q ((a :: t).getD p d)) ∘ Nat.succ)
          = (fun p => q (t.getD p d)) := by
        funext p
        simp [List.getD_cons_succ]
      have hcomp2 : ((fun p => f ((a :: t).getD p d)) ∘ Nat.succ)
          = (fun p => f (t.getD p d)) := by
        funext p
        simp [List.getD_cons_succ]
      rw [hcomp1, hcomp2]
      exact ih d
    by_cases hqa : q a = true
    · rw [List.filter_cons_of_pos (by simpa using hqa), List.map_cons, htail,
        List.filter_cons_of_pos hqa, List.map_cons, List.getD_cons_zero]
    · rw [List.filter_cons_of_neg (by simpa using hqa), htail,
        List.filter_cons_of_neg hqa]

/-- The heart of C1/C7: for a strictly sorted peak-index list, the source's
position-based indexing collapses to filtering the peak list by
"at or before the largest peak" and "adjusted time positive". -/
lemma ignDelaysMax_eq (target time : List ℚ) (ind : List ℕ) (tc : ℚ)
    (hsort : List.Pairwise (· < ·) ind) (hne : ind ≠ []) :
    ∃ k, argmaxIdx (ind.map (fun i => target.getD i 0)) = some k ∧ k < ind.length ∧
      ignDelaysMax target time ind tc
        = some ((ind.filter (fun i => decide (i ≤ ind.getD k 0)
              && decide (0 < time.getD i 0 - tc))).map (fun i => time.getD i 0 - tc)) := by
  obtain ⟨k, hk, hklen, _⟩ := argmaxIdx_spec (ind.map fun i => target.getD i 0)
    (by simpa using hne)
  refine ⟨k, hk, by simpa using hklen, ?_⟩
  simp only [ignDelaysMax, hk]
  congr 1
  have hlenF : (((ind.filter (fun i => decide (i ≤ ind.getD k 0))).map
      (fun i => time.getD i 0)).length)
        = (ind.filter (fun i => decide (i ≤ ind.getD k 0))).length :=
    List.length_map _ _
  rw [hlenF]
  have hstep1 : ∀ p ∈ List.range (ind.filter (fun i => decide (i ≤ ind.getD k 0))).length,
      (decide (0 < ((ind.filter (fun i => decide (i ≤ ind.getD k 0))).map
          (fun i => time.getD i 0)).getD p 0 - tc))
        = (decide (0 < time.getD
            ((ind.filter (fun i => decide (i ≤ ind.getD k 0))).getD p 0) 0 - tc)) := by
    intro p hp
    rw [List.mem_range] at hp
    rw [getD_map_of_lt (fun i => time.getD i 0) _ 0 0 p hp]
  rw [List.filter_congr hstep1]
  have hstep2 : ∀ p ∈ (List.range (ind.filter (fun i => decide (i ≤ ind.getD k 0))).length).filter
      (fun p => decide (0 < time.getD
          ((ind.filter (fun i => decide (i ≤ ind.getD k 0))).getD p 0) 0 - tc)),
      time.getD (ind.getD p 0) 0 - tc
        = time.getD ((ind.filter (fun i => decide (i ≤ ind.getD k 0))).getD p 0) 0 - tc := by
    intro p hp
    have hpr : p < (ind.filter (fun i => decide (i ≤ ind.getD k 0))).length := by
      have := List.mem_of_mem_filter hp
      rwa [List.mem_range] at this
    rw [filter_le_getD (ind.getD k 0) ind hsort p hpr]
  rw [List.map_congr_left hstep2]
  rw [range_filter_map_getD (fun i => decide (0 < time.getD i 0 - tc))
    (fun i => time.getD i 0 - tc) (ind.filter (fun i => decide (i ≤ ind.getD k 0))) 0]
  rw [List.filter_filter]
  have hcomm : ∀ a ∈ ind,
      (decide (0 < time.getD a 0 - tc) && decide (a ≤ ind.getD k 0))
        = (decide (a ≤ ind.getD k 0) && decide (0 < time.getD a 0 - tc)) :=
    fun a _ => Bool.and_comm _ _
  rw [List.filter_congr hcomm]

/-- The last entry of a mapped nonempty list. -/
lemma getLastD_map {α β : Type} (f : α → β) (dA : α) (dB : β)
    (l : List α) (hl : l ≠ []) : (l.map f).getLastD dB = f (l.getLastD dA) := by
  have hpos : 0 < l.length := List.length_pos.mpr hl
  rw [getLastD_eq_getD dB dB _ (by simpa using hl), getLastD_eq_getD dA dA l hl,
    List.length_map]
  exact getD_map_of_lt f l dA dB (l.length - 1) (by omega)

/-- C1: under criterion 'max' or 'derivative-max' with compression-time offset
tc (0 when the datum is absent), the computed delay list consists exactly of
the detected peaks at or before the globally largest peak whose time minus tc
is positive, each reported as its adjusted time, and the reported overall
ignition delay is the adjusted time of the last such qualifying peak.
The peak-detector collaborator's output is a strictly increasing list of
in-range indices, per its contract. -/
theorem C1_overall_delay_last_qualifying_peak
    (target time : List ℚ) (ind : List ℕ) (compTime : Option ℚ)
    (hsort : List.Pairwise (· < ·) ind) (hne : ind ≠ [])
    (hb : ∀ i ∈ ind, i < target.length)
    (htime : List.Pairwise (· < ·) time) :
    ∃ m ∈ ind,
      (∀ j ∈ ind, target.getD j 0 ≤ target.getD m 0) ∧
      ignDelaysMax target time ind (compTime.getD 0)
        = some ((ind.filter (fun i => decide (i ≤ m)
            && decide (0 < time.getD i 0 - compTime.getD 0))).map
              (fun i => time.getD i 0 - compTime.getD 0)) ∧
      ((ind.filter (fun i => decide (i ≤ m)
          && decide (0 < time.getD i 0 - compTime.getD 0))) ≠ [] →
        ∃ fs, analyzeMax target time ind compTime
          = Except.ok
              (time.getD ((ind.filter (fun i => decide (i ≤ m)
                  && decide (0 < time.getD i 0 - compTime.getD 0))).getLastD 0) 0
                - compTime.getD 0, fs)) := by
  obtain ⟨k, hk, hklen, heq⟩ := ignDelaysMax_eq target time ind (compTime.getD 0) hsort hne
  obtain ⟨k2, hk2, _, hmax⟩ := argmaxIdx_spec (ind.map fun i => target.getD i 0)
    (by simpa using hne)
  have hkk : k2 = k := by
    rw [hk] at hk2
    exact (Option.some.inj hk2).symm
  subst hkk
  refine ⟨ind.getD k2 0, ?_, ?_, heq, ?_⟩
  · rw [List.getD_eq_getElem ind 0 hklen]
    exact List.getElem_mem hklen
  · intro j hj
    obtain ⟨jj, hjj, hjeq⟩ := List.mem_iff_getElem.mp hj
    have hjj2 : jj < (ind.map fun i => target.getD i 0).length := by
      simpa using hjj
    have := hmax jj hjj2
    rw [getD_map_of_lt (fun i => target.getD i 0) ind 0 0 jj hjj,
      getD_map_of_lt (fun i => target.getD i 0) ind 0 0 k2 hklen] at this
    rwa [List.getD_eq_getElem ind 0 hjj, hjeq] at this
  · intro hqne
    refine ⟨firstStageDelay ((ind.filter (fun i => decide (i ≤ ind.getD k2 0)
        && decide (0 < time.getD i 0 - compTime.getD 0))).map
          (fun i => time.getD i 0 - compTime.getD 0)), ?_⟩
    simp only [analyzeMax, heq]
    have hmaplen : 0 < ((ind.filter (fun i => decide (i ≤ ind.getD k2 0)
        && decide (0 < time.getD i 0 - compTime.getD 0))).map
          (fun i => time.getD i 0 - compTime.getD 0)).length := by
      rw [List.length_map]
      exact List.length_pos.mpr hqne
    rw [overallDelay, if_pos hmaplen,
      getLastD_map (fun i => time.getD i 0 - compTime.getD 0) 0 0 _ hqne]

/-- Witness for C1: peaks at indices 1 and 3 of [1, 5, 2, 7, 3] at times
[0, 1, 2, 3, 4], no compression time: both peaks qualify, overall delay 3. -/
theorem C1_witness :
    ∃ m ∈ ([1, 3] : List ℕ),
      (∀ j ∈ ([1, 3] : List ℕ),
        ([1, 5, 2, 7, 3] : List ℚ).getD j 0 ≤ ([1, 5, 2, 7, 3] : List ℚ).getD m 0) ∧
      ignDelaysMax [1, 5, 2, 7, 3] [0, 1, 2, 3, 4] [1, 3] ((none : Option ℚ).getD 0)
        = some ((([1, 3] : List ℕ).filter (fun i => decide (i ≤ m)
            && decide (0 < ([0, 1, 2, 3, 4] : List ℚ).getD i 0 - (none : Option ℚ).getD 0))).map
              (fun i => ([0, 1, 2, 3, 4] : List ℚ).getD i 0 - (none : Option ℚ).getD 0)) ∧
      ((([1, 3] : List ℕ).filter (fun i => decide (i ≤ m)
          && decide (0 < ([0, 1, 2, 3, 4] : List ℚ).getD i 0 - (none : Option ℚ).getD 0))) ≠ [] →
        ∃ fs, analyzeMax [1, 5, 2, 7, 3] [0, 1, 2, 3, 4] [1, 3] none
          = Except.ok
              (([0, 1, 2, 3, 4] : List ℚ).getD ((([1, 3] : List ℕ).filter
                  (fun i => decide (i ≤ m)
                    && decide (0 < ([0, 1, 2, 3, 4] : List ℚ).getD i 0
                      - (none : Option ℚ).getD 0))).getLastD 0) 0
                - (none : Option ℚ).getD 0, fs)) :=
  C1_overall_delay_last_qualifying_peak [1, 5, 2, 7, 3] [0, 1, 2, 3, 4] [1, 3] none
    (by decide) (by decide) (by decide) (by decide)

/-- C7: under 'max'/'derivative-max', when more than one qualifying peak
exists the reported first-stage delay is the earliest qualifying peak's
adjusted time and is strictly below the reported overall delay; with at most
one qualifying peak the first-stage delay is not-a-number (modelled `none`).
Trajectory times are strictly increasing; the peak list is a strictly
increasing list of in-range indices per the detector contract. -/
theorem C7_first_stage_below_overall
    (target time : List ℚ) (ind : List ℕ) (compTime : Option ℚ)
    (hsort : List.Pairwise (· < ·) ind) (hne : ind ≠ [])
    (hb : ∀ i ∈ ind, i < target.length) (hlen : time.length = target.length)
    (htime : List.Pairwise (· < ·) time) :
    ∃ m ∈ ind, ∃ delays,
      ignDelaysMax target time ind (compTime.getD 0) = some delays ∧
      analyzeMax target time ind compTime
        = Except.ok (overallDelay delays, firstStageDelay delays) ∧
      (2 ≤ ((ind.filter (fun i => decide (i ≤ m)
          && decide (0 < time.getD i 0 - compTime.getD 0)))).length →
        firstStageDelay delays
          = some (time.getD ((ind.filter (fun i => decide (i ≤ m)
              && decide (0 < time.getD i 0 - compTime.getD 0))).getD 0 0) 0
                - compTime.getD 0) ∧
        time.getD ((ind.filter (fun i => decide (i ≤ m)
            && decide (0 < time.getD i 0 - compTime.getD 0))).getD 0 0) 0
              - compTime.getD 0 < overallDelay delays) ∧
      (((ind.filter (fun i => decide (i ≤ m)
          && decide (0 < time.getD i 0 - compTime.getD 0)))).length ≤ 1 →
        firstStageDelay delays = none) := by
  obtain ⟨k, hk, hklen, heq⟩ := ignDelaysMax_eq target time ind (compTime.getD 0) hsort hne
  refine ⟨ind.getD k 0, ?_, _, heq, ?_, ?_, ?_⟩
  · rw [List.getD_eq_getElem ind 0 hklen]
    exact List.getElem_mem hklen
  · simp only [analyzeMax, heq]
  · intro h2
    have hqsort : List.Pairwise (· < ·) (ind.filter (fun i => decide (i ≤ ind.getD k 0)
        && decide (0 < time.getD i 0 - compTime.getD 0))) := hsort.filter _
    set qual := ind.filter (fun i => decide (i ≤ ind.getD k 0)
        && decide (0 < time.getD i 0 - compTime.getD 0)) with hqual
    have hq0 : 0 < qual.length := by omega
    have hfs : firstStageDelay (qual.map (fun i => time.getD i 0 - compTime.getD 0))
        = some (time.getD (qual.getD 0 0) 0 - compTime.getD 0) := by
      rw [firstStageDelay, if_pos (by rw [List.length_map]; omega),
        getD_map_of_lt (fun i => time.getD i 0 - compTime.getD 0) qual 0 0 0 hq0]
    refine ⟨hfs, ?_⟩
    have hov : overallDelay (qual.map (fun i => time.getD i 0 - compTime.getD 0))
        = time.getD (qual.getD (qual.length - 1) 0) 0 - compTime.getD 0 := by
      have hqne : qual ≠ [] := by
        intro hq
        rw [hq] at hq0
        simp at hq0
      rw [overallDelay, if_pos (by rw [List.length_map]; omega),
        getLastD_map (fun i => time.getD i 0 - compTime.getD 0) 0 0 qual hqne,
        getLastD_eq_getD 0 0 qual hqne]
    rw [hov]
    have hidx : qual.getD 0 0 < qual.getD (qual.length - 1) 0 :=
      getD_lt_of_pairwise 0 qual hqsort 0 (qual.length - 1) (by omega) (by omega)
    have hlast_mem : qual.getD (qual.length - 1) 0 ∈ qual := by
      rw [List.getD_eq_getElem qual 0 (by omega)]
      exact List.getElem_mem (by omega)
    have hlast_lt : qual.getD (qual.length - 1) 0 < time.length := by
      rw [hlen]
      exact hb _ (List.mem_of_mem_filter hlast_mem)
    have := getD_lt_of_pairwise 0 time htime (qual.getD 0 0)
      (qual.getD (qual.length - 1) 0) hidx hlast_lt
    linarith
  · intro h1
    rw [firstStageDelay, if_neg (by rw [List.length_map]; omega)]

/-- Witness for C7: two qualifying peaks, first-stage delay 1 strictly below
the overall delay 3. -/
theorem C7_witness :
    ∃ m ∈ ([1, 3] : List ℕ), ∃ delays,
      ignDelaysMax [1, 5, 2, 7, 3] [0, 1, 2, 3, 4] [1, 3] ((none : Option ℚ).getD 0)
        = some delays ∧
      analyzeMax [1, 5, 2, 7, 3] [0, 1, 2, 3, 4] [1, 3] none
        = Except.ok (overallDelay delays, firstStageDelay delays) ∧
      (2 ≤ ((([1, 3] : List ℕ).filter (fun i => decide (i ≤ m)
          && decide (0 < ([0, 1, 2, 3, 4] : List ℚ).getD i 0
            - (none : Option ℚ).getD 0)))).length →
        firstStageDelay delays
          = some (([0, 1, 2, 3, 4] : List ℚ).getD ((([1, 3] : List ℕ).filter
              (fun i => decide (i ≤ m)
                && decide (0 < ([0, 1, 2, 3, 4] : List ℚ).getD i 0
                  - (none : Option ℚ).getD 0))).getD 0 0) 0
                - (none : Option ℚ).getD 0) ∧
        ([0, 1, 2, 3, 4] : List ℚ).getD ((([1, 3] : List ℕ).filter
            (fun i => decide (i ≤ m)
              && decide (0 < ([0, 1, 2, 3, 4] : List ℚ).getD i 0
                - (none : Option ℚ).getD 0))).getD 0 0) 0
              - (none : Option ℚ).getD 0 < overallDelay delays) ∧
      (((([1, 3] : List ℕ).filter (fun i => decide (i ≤ m)
          && decide (0 < ([0, 1, 2, 3, 4] : List ℚ).getD i 0
            - (none : Option ℚ).getD 0)))).length ≤ 1 →
        firstStageDelay delays = none) :=
  C7_first_stage_below_overall [1, 5, 2, 7, 3] [0, 1, 2, 3, 4] [1, 3] none
    (by decide) (by decide) (by decide) (by decide) (by decide)

/-- C2 (code bug evidence): on a trajectory where the peak detector finds no
peak in the raw series and none in the derivative fallback either,
`process_results` under criterion 'max' hits `numpy.argmax` on an empty
sequence (line 474) and raises a `ValueError` instead of reporting a 0 s
delay. Times [0, 1, 2], strictly decreasing target [3, 2, 1]. -/
theorem C2_zero_peaks_raises :
    process_results "max" [0, 1, 2] [3, 2, 1] (fun _ => []) none
      = Except.error "ValueError: attempt to get argmax of an empty sequence" := rfl

/-- `foldl max` dominates its seed and every list element. -/
lemma foldl_max_le (a : ℚ) (t : List ℚ) :
    a ≤ t.foldl max a ∧ ∀ b ∈ t, b ≤ t.foldl max a := by
  induction t generalizing a with
  | nil => exact ⟨le_refl a, by simp⟩
  | cons c t ih =>
    obtain ⟨h1, h2⟩ := ih (max a c)
    refine ⟨le_trans (le_max_left a c) h1, ?_⟩
    intro b hb
    rcases List.mem_cons.mp hb with h | h
    · subst h
      exact le_trans (le_max_right a b) h1
    · exact h2 b h

/-- `npMaxD` dominates every element. -/
lemma npMaxD_ge (l : List ℚ) : ∀ b ∈ l, b ≤ npMaxD l := by
  intro b hb
  cases l with
  | nil => simp at hb
  | cons a t =>
    rcases List.mem_cons.mp hb with h | h
    · subst h
      exact (foldl_max_le b t).1
    · exact (foldl_max_le a t).2 b h

/-- `foldl max` stays inside the seeded list. -/
lemma foldl_max_mem (a : ℚ) (t : List ℚ) : t.foldl max a ∈ a :: t := by
  induction t generalizing a with
  | nil => simp
  | cons c t ih =>
    have h := ih (max a c)
    rcases List.mem_cons.mp h with h1 | h1
    · rcases max_choice a c with h2 | h2
      · rw [List.foldl_cons, h1, h2]
        simp
      · rw [List.foldl_cons, h1, h2]
        simp
    · rw [List.foldl_cons]
      exact List.mem_cons_of_mem a (List.mem_cons_of_mem c h1)

/-- `npMaxD` of a nonempty list is one of its elements. -/
lemma npMaxD_mem (l : List ℚ) (hne : l ≠ []) : npMaxD l ∈ l := by
  cases l with
  | nil => exact absurd rfl hne
  | cons a t => exact foldl_max_mem a t

/-- C6: under '1/2 max', the sole reported delay is the time of the sample,
among samples strictly before the index of the globally largest detected
peak of the raw series, whose value is closest to half the series' global
maximum; the first-stage delay is not-a-number (modelled `none`). The
detector contract supplies nonempty interior in-range peak indices. -/
theorem C6_half_max_sole_delay
    (target time : List ℚ) (ind : List ℕ) (hne : ind ≠ [])
    (hb : ∀ i ∈ ind, 0 < i ∧ i < target.length) :
    ∃ m ∈ ind, ∃ h,
      (∀ j ∈ ind, target.getD j 0 ≤ target.getD m 0) ∧
      (npMaxD target ∈ target ∧ ∀ b ∈ target, b ≤ npMaxD target) ∧
      h < m ∧
      (∀ j, j < m → |target.getD h 0 - 1/2 * npMaxD target|
          ≤ |target.getD j 0 - 1/2 * npMaxD target|) ∧
      ignDelaysHalfMax target time ind = some [time.getD h 0] ∧
      analyzeHalfMax target time ind = Except.ok (time.getD h 0, none) := by
  obtain ⟨i0, hi0⟩ := List.exists_mem_of_ne_nil ind hne
  have htlen : 0 < target.length := lt_of_le_of_lt (Nat.zero_le i0) (hb i0 hi0).2
  have htne : target ≠ [] := by
    intro h
    rw [h] at htlen
    simp at htlen
  obtain ⟨k, hk, hklen0, hmax⟩ := argmaxIdx_spec (ind.map fun i => target.getD i 0)
    (by simpa using hne)
  have hklen : k < ind.length := by simpa using hklen0
  have hmmem : ind.getD k 0 ∈ ind := by
    rw [List.getD_eq_getElem ind 0 hklen]
    exact List.getElem_mem hklen
  have hm0 : 0 < ind.getD k 0 := (hb _ hmmem).1
  have hmlt : ind.getD k 0 < target.length := (hb _ hmmem).2
  have htake : (target.take (ind.getD k 0)).length = ind.getD k 0 := by
    rw [List.length_take]
    omega
  have htakeD : ∀ j, j < ind.getD k 0 →
      (target.take (ind.getD k 0)).getD j 0 = target.getD j 0 := by
    intro j hj
    have hj2 : j < target.length := by omega
    rw [List.getD_eq_getElem _ 0 (by rw [htake]; exact hj),
      List.getD_eq_getElem _ 0 hj2]
    exact List.getElem_take target
  obtain ⟨h, hh, hhlen, hmin⟩ := argminIdx_spec
    ((target.take (ind.getD k 0)).map (fun v => |v - 1/2 * npMaxD target|))
    (by
      intro hc
      rw [List.map_eq_nil_iff] at hc
      have hz : (target.take (ind.getD k 0)).length = 0 := by rw [hc]; rfl
      omega)
  have hhlt : h < ind.getD k 0 := by
    rw [List.length_map, htake] at hhlen
    exact hhlen
  have hfalse : target.isEmpty = false := by simpa [List.isEmpty_iff] using htne
  have hresult : ignDelaysHalfMax target time ind = some [time.getD h 0] := by
    simp only [ignDelaysHalfMax, hfalse, Bool.false_eq_true, if_false, hk, hh]
  refine ⟨ind.getD k 0, hmmem, h, ?_, ⟨npMaxD_mem target htne, npMaxD_ge target⟩,
    hhlt, ?_, hresult, ?_⟩
  · intro j hj
    obtain ⟨jj, hjj, hjeq⟩ := List.mem_iff_getElem.mp hj
    have hjj2 : jj < (ind.map fun i => target.getD i 0).length := by simpa using hjj
    have := hmax jj hjj2
    rw [getD_map_of_lt (fun i => target.getD i 0) ind 0 0 jj hjj,
      getD_map_of_lt (fun i => target.getD i 0) ind 0 0 k hklen] at this
    rwa [List.getD_eq_getElem ind 0 hjj, hjeq] at this
  · intro j hj
    have hjlen : j < ((target.take (ind.getD k 0)).map
        (fun v => |v - 1/2 * npMaxD target|)).length := by
      rw [List.length_map, htake]
      exact hj
    have := hmin j hjlen
    rw [getD_map_of_lt (fun v => |v - 1/2 * npMaxD target|) _ 0 0 h (by rw [htake]; exact hhlt),
      getD_map_of_lt (fun v => |v - 1/2 * npMaxD target|) _ 0 0 j (by rw [htake]; exact hj)]
      at this
    rwa [htakeD h hhlt, htakeD j hj] at this
  · simp only [analyzeHalfMax, hresult]
    rfl

/-- Witness for C6: single interior peak of [0, 2, 10, 3, 1] at index 2,
half-max 5, closest prior sample at index 1, reported delay is its time. -/
theorem C6_witness :
    ∃ m ∈ ([2] : List ℕ), ∃ h,
      (∀ j ∈ ([2] : List ℕ),
        ([0, 2, 10, 3, 1] : List ℚ).getD j 0 ≤ ([0, 2, 10, 3, 1] : List ℚ).getD m 0) ∧
      (npMaxD [0, 2, 10, 3, 1] ∈ ([0, 2, 10, 3, 1] : List ℚ) ∧
        ∀ b ∈ ([0, 2, 10, 3, 1] : List ℚ), b ≤ npMaxD [0, 2, 10, 3, 1]) ∧
      h < m ∧
      (∀ j, j < m → |([0, 2, 10, 3, 1] : List ℚ).getD h 0 - 1/2 * npMaxD [0, 2, 10, 3, 1]|
          ≤ |([0, 2, 10, 3, 1] : List ℚ).getD j 0 - 1/2 * npMaxD [0, 2, 10, 3, 1]|) ∧
      ignDelaysHalfMax [0, 2, 10, 3, 1] [0, 1, 2, 3, 4] [2]
        = some [([0, 1, 2, 3, 4] : List ℚ).getD h 0] ∧
      analyzeHalfMax [0, 2, 10, 3, 1] [0, 1, 2, 3, 4] [2]
        = Except.ok (([0, 1, 2, 3, 4] : List ℚ).getD h 0, none) :=
  C6_half_max_sole_delay [0, 2, 10, 3, 1] [0, 1, 2, 3, 4] [2] (by decide) (by decide)

/-- Python `str.lower()`, modelled characterwise. -/
def strLower (s : String) : String := String.mk (s.data.map Char.toLower)

/-- Python `spec[:-1]`: drop the final character. -/
def strDropLast (s : String) : String := String.mk (s.data.dropLast)

/-- Python `spec[-1] == '*'` for a nonempty string. -/
def lastIsStar (s : String) : Bool := s.data.getLastD ' ' == '*'

/-- Model of cantera's `species_index`: the index of a species by name,
`none` where cantera raises `ValueError` for an unknown name. -/
def species_index (names : List String) (sp : String) : Option ℕ :=
  names.findIdx? (fun nm => nm == sp)

/-- Python truthiness of the optional species index in `if ind:` (line 329):
false both for `None` and for the integer 0. -/
def pyTruthy : Option ℕ → Bool
  | none => false
  | some n => n != 0

/-- Ignition-target resolution of `setup_case` (lines 309-340): 'pressure'
and 'temperature' pass through; otherwise the label is a species name, tried
as given, lowercased, and - for an excited radical label ending in '*' - with
the marker stripped (the check `spec[-1] == '*'` raises `IndexError` on an
empty label); the first successful lookup is kept, and `if ind:` decides
between using the index and falling back to pressure / 'd/dt max'. -/
def resolveTarget (names : List String) (targ : String) (itype : String) :
    Except String ((String ⊕ ℕ) × String) :=
  if targ = "pressure" ∨ targ = "temperature" then Except.ok (Sum.inl targ, itype)
  else if targ = "" then Except.error "IndexError: string index out of range"
  else
    let tryList := [targ, strLower targ]
      ++ (if lastIsStar targ then [strDropLast targ, strLower (strDropLast targ)] else [])
    let ind := tryList.findSome? (fun sp => species_index names sp)
    if pyTruthy ind then Except.ok (Sum.inr (ind.getD 0), itype)
    else Except.ok (Sum.inl "pressure", "d/dt max")

/-- C3 (code bug evidence): the mechanism knows species "oh*" at index 0, the
first matching candidate for label "OH*" resolves to index 0, yet the
resolver falls back to pressure / 'd/dt max' because `if ind:` is false for
the integer 0. -/
theorem C3_species_index_zero_falls_back :
    resolveTarget ["oh*", "h2"] "OH*" "max"
      = Except.ok (Sum.inl "pressure", "d/dt max") := rfl

/-- Sanity check for C3, same mechanism with the species at index 1: the
first matching candidate's index is kept and the criterion passes through. -/
theorem C3_species_index_one_resolves :
    resolveTarget ["h2", "oh*"] "OH*" "max" = Except.ok (Sum.inr 1, "max") := rfl

/-- C9 (counterexample): an empty ignition-target label, none of whose
candidates is a species, makes `setup_case` raise an `IndexError` at
`spec[-1]` instead of falling back. -/
theorem C9_counterexample_empty_label :
    resolveTarget ["h2"] "" "max"
      = Except.error "IndexError: string index out of range" := rfl

/-- `findIdx?` misses when the predicate fails on every element. -/
lemma findIdx?_eq_none_of_all {α : Type} (p : α → Bool) :
    ∀ (l : List α) (s : ℕ), (∀ x ∈ l, p x = false) → l.findIdx? p s = none := by
  intro l
  induction l with
  | nil => intro _ _; rfl
  | cons a t ih =>
    intro s hall
    simp only [List.findIdx?]
    rw [hall a (by simp)]
    simp only [Bool.false_eq_true, if_false]
    exact ih (s + 1) (fun x hx => hall x (List.mem_cons_of_mem a hx))

/-- `findSome?` misses when the function fails on every element. -/
lemma findSome?_eq_none_of_all {α β : Type} (f : α → Option β) :
    ∀ l : List α, (∀ x ∈ l, f x = none) → l.findSome? f = none := by
  intro l
  induction l with
  | nil => intro _; rfl
  | cons a t ih =>
    intro hall
    rw [List.findSome?_cons, hall a (by simp)]
    exact ih (fun x hx => hall x (List.mem_cons_of_mem a hx))

/-- C9 (amended): for every nonempty ignition-target label other than
'pressure'/'temperature' none of whose candidates (label, lowercase, and for
a '*'-suffixed label the stripped forms) names a species, the resolver does
not raise: it falls back to target 'pressure' with criterion 'd/dt max'. -/
theorem C9_amended_fallback_on_no_match
    (names : List String) (targ itype : String)
    (hney : targ ≠ "") (hnp : targ ≠ "pressure") (hnt : targ ≠ "temperature")
    (hmiss : ∀ sp ∈ [targ, strLower targ]
        ++ (if lastIsStar targ then [strDropLast targ, strLower (strDropLast targ)]
          else []),
      ∀ nm ∈ names, nm ≠ sp) :
    resolveTarget names targ itype = Except.ok (Sum.inl "pressure", "d/dt max") := by
  rw [resolveTarget]
  rw [if_neg (by
    intro hor
    rcases hor with h | h
    · exact hnp h
    · exact hnt h)]
  rw [if_neg hney]
  have hnone : ([targ, strLower targ]
      ++ (if lastIsStar targ then [strDropLast targ, strLower (strDropLast targ)]
        else [])).findSome? (fun sp => species_index names sp) = none := by
    apply findSome?_eq_none_of_all
    intro sp hsp
    rw [species_index]
    apply findIdx?_eq_none_of_all
    intro nm hnm
    have := hmiss sp hsp nm hnm
    simpa using this
  simp only [hnone]
  rfl

/-- Witness for C9 (amended): label "xy" is not a species of ["h2"]. -/
theorem C9_witness :
    resolveTarget ["h2"] "xy" "max" = Except.ok (Sum.inl "pressure", "d/dt max") :=
  C9_amended_fallback_on_no_match ["h2"] "xy" "max" (by decide) (by decide) (by decide)
    (by decide)

/-- Criterion dispatch, 'd/dt max': the analysis runs on the first
derivative of the target series, with no fallback re-detection. -/
lemma process_results_ddtmax_eq (time target : List ℚ) (detect : List ℚ → List ℕ)
    (compTime : Option ℚ) :
    process_results "d/dt max" time target detect compTime
      = analyzeMax (first_derivative time target) time
          (detect (first_derivative time target)) compTime := by
  rw [process_results, if_pos (Or.inr rfl)]
  rw [if_pos rfl]
  have hcond : ∀ n : ℕ, (n = 0 ∧ ("d/dt max" : String) = "max") = False :=
    fun n => eq_false (fun hc => absurd hc.2 (by decide))
  simp only [hcond, if_false]

/-- Criterion dispatch, 'max' with peaks found in the raw series: the
analysis runs on the raw target series. -/
lemma process_results_max_eq (time target : List ℚ) (detect : List ℚ → List ℕ)
    (compTime : Option ℚ) (h : detect target ≠ []) :
    process_results "max" time target detect compTime
      = analyzeMax target time (detect target) compTime := by
  rw [process_results, if_pos (Or.inl rfl)]
  rw [if_neg (by decide)]
  have hcond : ((detect target).length = 0) = False :=
    eq_false (fun hc => h (List.length_eq_zero.mp hc))
  simp only [hcond, false_and, if_false]

/-- Criterion dispatch, 'max' with no peak in the raw series: the analysis
falls back to the derivative series and re-detects peaks there. -/
lemma process_results_max_fallback_eq (time target : List ℚ)
    (detect : List ℚ → List ℕ) (compTime : Option ℚ) (h : detect target = []) :
    process_results "max" time target detect compTime
      = analyzeMax (first_derivative time target) time
          (detect (first_derivative time target)) compTime := by
  rw [process_results, if_pos (Or.inl rfl)]
  rw [if_neg (by decide)]
  have hcond : ((detect target).length = 0) = True :=
    eq_true (by rw [h]; rfl)
  simp only [hcond, true_and, and_true, if_true]

/-- A reactor snapshot as recorded in the trajectory table: time,
temperature, pressure, volume, species mass fractions. -/
structure RState where
  time : ℚ
  temperature : ℚ
  pressure : ℚ
  volume : ℚ
  massFractions : List ℚ
deriving DecidableEq, Repr

/-- Lines 391-415 of `run_case`: the interpolated final timestep written when
a native step at `s` overshoots the end time, `p` being the previous step's
saved state; `numpy.interp(time_end, [prev_time, t_new], [prev, new])`
fieldwise, the mass-fraction loop running over the current `Y` size. -/
def interpState (tEnd : ℚ) (p s : RState) : RState :=
  { time := tEnd
  , temperature := interpLin tEnd p.time p.temperature s.time s.temperature
  , pressure := interpLin tEnd p.time p.pressure s.time s.pressure
  , volume := interpLin tEnd p.time p.volume s.time s.volume
  , massFractions := (List.range s.massFractions.length).map
      (fun i => interpLin tEnd p.time (p.massFractions.getD i 0)
        s.time (s.massFractions.getD i 0)) }

/-- Main integration loop of `run_case` (lines 387-432). `steps` is the
sequence of states after each native `step()` call; `tCur` is the reactor
time checked by the `while` condition; `prev` models the `prev_*` locals,
`none` before their first assignment, so an overshoot on the very first step
is a Python `NameError`. An exhausted step list with the loop still running
models an integrator that stops yielding steps. -/
def runCaseLoop (tEnd : ℚ) : List RState → ℚ → Option RState → Except String (List RState)
  | [], tCur, _ =>
    if tCur < tEnd then Except.error "integrator yielded no further step"
    else Except.ok []
  | s :: rest, tCur, prev =>
    if tCur < tEnd then
      if tEnd < s.time then
        match prev with
        | none => Except.error "NameError: name prev_time is not defined"
        | some p => Except.ok [interpState tEnd p s]
      else
        match runCaseLoop tEnd rest s.time (some s) with
        | Except.ok tr => Except.ok (s :: tr)
        | Except.error e => Except.error e
    else Except.ok []

/-- `run_case` (lines 346-437): record the initial state, then loop. -/
def run_case (s0 : RState) (steps : List RState) (tEnd : ℚ) :
    Except String (List RState) :=
  match runCaseLoop tEnd steps s0.time none with
  | Except.ok tr => Except.ok (s0 :: tr)
  | Except.error e => Except.error e

/-- Linear interpolation at a point strictly inside the bracket stays between
the two bracketing ordinates. -/
lemma interpLin_between (t a b ya yb : ℚ) (h1 : a < t) (h2 : t < b) :
    min ya yb ≤ interpLin t a ya b yb ∧ interpLin t a ya b yb ≤ max ya yb := by
  have hba : 0 < b - a := by linarith
  have hr0 : 0 ≤ (t - a) / (b - a) := div_nonneg (by linarith) (le_of_lt hba)
  have hr1 : (t - a) / (b - a) ≤ 1 := (div_le_one hba).mpr (by linarith)
  have hform : interpLin t a ya b yb = ya + (yb - ya) * ((t - a) / (b - a)) := by
    rw [interpLin, mul_div_assoc]
  rcases le_total ya yb with hy | hy
  · constructor
    · rw [min_eq_left hy, hform]
      nlinarith [mul_nonneg (sub_nonneg.mpr hy) hr0]
    · rw [max_eq_right hy, hform]
      nlinarith [mul_le_of_le_one_right (sub_nonneg.mpr hy) hr1]
  · constructor
    · rw [min_eq_right hy, hform]
      nlinarith [mul_le_of_le_one_right (sub_nonneg.mpr hy) hr1]
    · rw [max_eq_left hy, hform]
      nlinarith [mul_nonneg (sub_nonneg.mpr hy) hr0]

/-- Unfolding of the loop along a run whose steps stay below the end time
until a final overshooting step. -/
lemma runCaseLoop_overshoot (tEnd : ℚ) (p s : RState) (rest : List RState) :
    ∀ (front : List RState) (tCur : ℚ) (prev : Option RState),
      tCur < tEnd → (∀ q ∈ front, q.time < tEnd) → p.time < tEnd → tEnd < s.time →
      runCaseLoop tEnd (front ++ p :: s :: rest) tCur prev
        = Except.ok (front ++ [p, interpState tEnd p s]) := by
  intro front
  induction front with
  | nil =>
    intro tCur prev hCur _ hp hs
    rw [List.nil_append]
    simp only [runCaseLoop]
    rw [if_pos hCur, if_neg (not_lt.mpr (le_of_lt hp)), if_pos hp, if_pos hs]
    rfl
  | cons q front ih =>
    intro tCur prev hCur hfront hp hs
    rw [List.cons_append]
    simp only [runCaseLoop]
    rw [if_pos hCur, if_neg (not_lt.mpr (le_of_lt (hfront q (by simp)))),
      ih q.time (some q) (hfront q (by simp))
        (fun r hr => hfront r (List.mem_cons_of_mem q hr)) hp hs]
    rfl

/-- C4 (amended): when a native step overshoots the target end time after at
least one recorded native step, the run succeeds, the final trajectory entry
is the interpolated state: its time equals the end time exactly, and each
field (temperature, pressure, volume, every mass fraction) is the linear
interpolation between the previously recorded state and the overshooting
state, hence lies between those two bracketing values. -/
theorem C4_amended_interpolated_final_entry (s0 : RState) (front : List RState)
    (p s : RState) (rest : List RState) (tEnd : ℚ)
    (h0 : s0.time < tEnd) (hfront : ∀ q ∈ front, q.time < tEnd)
    (hp : p.time < tEnd) (hs : tEnd < s.time) :
    run_case s0 (front ++ p :: s :: rest) tEnd
        = Except.ok (s0 :: (front ++ [p, interpState tEnd p s])) ∧
    (interpState tEnd p s).time = tEnd ∧
    (min p.temperature s.temperature ≤ (interpState tEnd p s).temperature ∧
      (interpState tEnd p s).temperature ≤ max p.temperature s.temperature) ∧
    (min p.pressure s.pressure ≤ (interpState tEnd p s).pressure ∧
      (interpState tEnd p s).pressure ≤ max p.pressure s.pressure) ∧
    (min p.volume s.volume ≤ (interpState tEnd p s).volume ∧
      (interpState tEnd p s).volume ≤ max p.volume s.volume) ∧
    ∀ i, i < s.massFractions.length →
      min (p.massFractions.getD i 0) (s.massFractions.getD i 0)
          ≤ (interpState tEnd p s).massFractions.getD i 0 ∧
        (interpState tEnd p s).massFractions.getD i 0
          ≤ max (p.massFractions.getD i 0) (s.massFractions.getD i 0) := by
  refine ⟨?_, rfl, ?_, ?_, ?_, ?_⟩
  · rw [run_case, runCaseLoop_overshoot tEnd p s rest front s0.time none h0 hfront hp hs]
  · exact interpLin_between tEnd p.time s.time p.temperature s.temperature hp hs
  · exact interpLin_between tEnd p.time s.time p.pressure s.pressure hp hs
  · exact interpLin_between tEnd p.time s.time p.volume s.volume hp hs
  · intro i hi
    have hr : (List.range s.massFractions.length).getD i 0 = i := by
      rw [List.getD_eq_getElem _ 0 (by simpa using hi), List.getElem_range]
    have hD : (interpState tEnd p s).massFractions.getD i 0
        = interpLin tEnd p.time (p.massFractions.getD i 0)
            s.time (s.massFractions.getD i 0) := by
      show ((List.range s.massFractions.length).map
        (fun i => interpLin tEnd p.time (p.massFractions.getD i 0)
          s.time (s.massFractions.getD i 0))).getD i 0 = _
      rw [getD_map_of_lt _ (List.range s.massFractions.length) 0 0 i (by simpa using hi),
        hr]
    rw [hD]
    exact interpLin_between tEnd p.time s.time (p.massFractions.getD i 0)
      (s.massFractions.getD i 0) hp hs

/-- C4 (counterexample): when the very first native step overshoots the end
time, the source reads the never-assigned `prev_time` and dies with a
`NameError` instead of producing an interpolated final entry. -/
theorem C4_counterexample_first_step_overshoot :
    run_case (RState.mk 0 300 100000 1 [1]) [RState.mk 2 600 200000 1 [1]] 1
      = Except.error "NameError: name prev_time is not defined" := rfl

/-- Witness for C4 at a two-step run overshooting the end time 2. -/
theorem C4_witness :
    (interpState 2 (RState.mk 1 300 100000 1 [1])
      (RState.mk 3 600 200000 1 [1])).time = 2 :=
  (C4_amended_interpolated_final_entry (RState.mk 0 300 100000 1 [1]) []
    (RState.mk 1 300 100000 1 [1]) (RState.mk 3 600 200000 1 [1]) [] 2
    (by decide) (by simp) (by decide) (by decide)).2.1

/-- While-loop skeleton of `run_case` (lines 387-388): `tau n` is the reactor
time after `n` native steps; the loop keeps stepping while the time is below
the end time. Fuel-indexed unfolding: `some n` when the loop exits after `n`
steps within the given fuel, `none` when the fuel is exhausted with the loop
still running. -/
def integLoop (tau : ℕ → ℚ) (tEnd : ℚ) : ℕ → ℕ → Option ℕ
  | 0, _ => none
  | fuel + 1, n => if tau n < tEnd then integLoop tau tEnd fuel (n + 1) else some n

/-- C5 (counterexample): with an integrator whose time never advances
(time 0 after every step) and end time 1, the loop has not terminated within
any number of steps: no bound is imposed and no failure is surfaced - the
source loops forever. -/
theorem C5_counterexample_unbounded_loop :
    ¬ ∃ fuel, (integLoop (fun _ => (0 : ℚ)) 1 fuel 0).isSome = true := by
  rintro ⟨fuel, hfuel⟩
  have key : ∀ f n, integLoop (fun _ => (0 : ℚ)) 1 f n = none := by
    intro f
    induction f with
    | zero => intro n; rfl
    | succ f ih =>
      intro n
      show (if (0 : ℚ) < 1 then integLoop (fun _ => (0 : ℚ)) 1 f (n + 1) else some n)
        = none
      rw [if_pos (by norm_num)]
      exact ih (n + 1)
  rw [key fuel 0] at hfuel
  simp at hfuel

/-- C5 (amended): the integration loop terminates precisely when the
integrator's time reaches the target end time after some number of native
steps; otherwise it runs forever. -/
theorem C5_amended_loop_terminates_iff_reached (tau : ℕ → ℚ) (tEnd : ℚ) :
    (∃ fuel, (integLoop tau tEnd fuel 0).isSome = true) ↔ (∃ n, tEnd ≤ tau n) := by
  constructor
  · rintro ⟨fuel, hfuel⟩
    have key : ∀ f n m, integLoop tau tEnd f n = some m → tEnd ≤ tau m := by
      intro f
      induction f with
      | zero =>
        intro n m h
        exact absurd h (by simp [integLoop])
      | succ f ih =>
        intro n m h
        simp only [integLoop] at h
        by_cases hc : tau n < tEnd
        · rw [if_pos hc] at h
          exact ih (n + 1) m h
        · rw [if_neg hc] at h
          have hm : n = m := Option.some.inj h
          subst hm
          exact not_lt.mp hc
    obtain ⟨m, hm⟩ := Option.isSome_iff_exists.mp hfuel
    exact ⟨m, key fuel 0 m hm⟩
  · rintro ⟨n, hn⟩
    have key : ∀ k start, tEnd ≤ tau (start + k) →
        (integLoop tau tEnd (k + 1) start).isSome = true := by
      intro k
      induction k with
      | zero =>
        intro start h
        rw [Nat.add_zero] at h
        simp only [integLoop]
        rw [if_neg (not_lt.mpr h)]
        rfl
      | succ k ih =>
        intro start h
        simp only [integLoop]
        by_cases hc : tau start < tEnd
        · rw [if_pos hc]
          have harith : start + 1 + k = start + (k + 1) := by omega
          exact ih (start + 1) (by rw [harith]; exact h)
        · rw [if_neg hc]
          rfl
    refine ⟨n + 1, ?_⟩
    have := key n 0 (by simpa using hn)
    simpa using this

end PyTeCK
